import Mathlib

/-!
Shallow embedding of the nsnake game engine (`src/core/SnakeEngine.cpp`)
and proofs about its movement, food, construction and rendering logic.

Modelling conventions:
* The template parameters `U`/`UU` (unsigned integer widths) are embedded as
  arbitrary-precision naturals; coordinate arithmetic that the C++ performs in
  `int` (after integral promotion) is done in `ℤ`.
* `rand_in_range` (from `random.hpp`, not part of the engine file) is embedded
  by threading an explicit list of pending random draws through the state; a
  draw is reduced into the grid with `%`, matching the generator's contract of
  producing a value in `[0, xsz-1]` / `[0, ysz-1]`.  An operation that would
  need more draws than the list provides returns `none`.
* The `wchar_t` render buffer is a `List Char`; `malloc` garbage in the cells
  the first render skips is modelled by the fixed placeholder `uninitCell`.
-/

namespace NSnake

/-- Mirrors `enum Movement: char { UP, DOWN, LEFT, RIGHT }`. -/
inductive Movement
  | UP
  | DOWN
  | LEFT
  | RIGHT
deriving DecidableEq

/-- Mirrors `enum class GameStatus: char { NONE, WIN, LOST }`. -/
inductive GameStatus
  | NONE
  | WIN
  | LOST
deriving DecidableEq

/-- Mirrors `struct Cell { U x, y; }` with equality on both coordinates. -/
structure Cell where
  x : ℕ
  y : ℕ
deriving DecidableEq

/-- Mirrors `signed char offset[4][2] = { { -1, 0 }, { 1, 0 }, { 0, -1 }, { 0, 1 } }`,
indexed by `Movement`. -/
def offset : Movement → ℤ × ℤ
  | .UP => (-1, 0)
  | .DOWN => (1, 0)
  | .LEFT => (0, -1)
  | .RIGHT => (0, 1)

/-- Mirrors `SEngine::areOpposite`. -/
def areOpposite (a b : Movement) : Bool :=
  ((a == .UP && b == .DOWN) || (a == .DOWN && b == .UP)) ||
  ((a == .LEFT && b == .RIGHT) || (a == .RIGHT && b == .LEFT))

/-- Mirrors `SEngine::isInvalidMovement`: the candidate head
`head + offset[mv]`, computed in promoted (signed) arithmetic, lies outside
`[0, xsz) × [0, ysz)`. -/
def isInvalidMovement (xsz ysz : ℕ) (head : Cell) (mv : Movement) : Bool :=
  decide ((head.x : ℤ) + (offset mv).1 ≤ -1) ||
  decide ((head.x : ℤ) + (offset mv).1 ≥ (xsz : ℤ)) ||
  decide ((head.y : ℤ) + (offset mv).2 ≤ -1) ||
  decide ((head.y : ℤ) + (offset mv).2 ≥ (ysz : ℤ))

/-- The updated head cell, `snake.front()->x += offset[mv][0]` etc.; only
evaluated after `isInvalidMovement` ruled out leaving the grid, where the
`toNat` round-trip is exact. -/
def stepCell (head : Cell) (mv : Movement) : Cell :=
  ⟨((head.x : ℤ) + (offset mv).1).toNat, ((head.y : ℤ) + (offset mv).2).toNat⟩

/-- Mirrors `SEngine::find`: linear scan of the snake for a cell. -/
def findCell (snake : List Cell) (b : Cell) : Bool :=
  snake.any (· == b)

/-- Mirrors `SEngine::generate`: one random draw reduced into the grid,
`rand_in_range(0, xsz-1)` / `rand_in_range(0, ysz-1)`. -/
def generate (xsz ysz : ℕ) (draw : Cell) : Cell :=
  ⟨draw.x % xsz, draw.y % ysz⟩

/-- Mirrors `SEngine::addnewfood`: rejection-sample draws until one misses the
snake; `none` when the modelled draw list runs out. -/
def addnewfood (xsz ysz : ℕ) (snake : List Cell) : List Cell → Option (Cell × List Cell)
  | [] => none
  | draw :: rest =>
    let f := generate xsz ysz draw
    if snake.any (· == f) then addnewfood xsz ysz snake rest
    else some (f, rest)

/-- Mirrors the body-follow loop of `SEngine::move`: each cell not equal to the
(already updated) head takes the position its predecessor held before the move;
the returned cell is the final value of `hold` (the vacated tail position). -/
def bodyFollow (nh : Cell) : List Cell → Cell → List Cell × Cell
  | [], hold => ([], hold)
  | c :: rest, hold =>
    if c = nh then
      let r := bodyFollow nh rest hold
      (c :: r.1, r.2)
    else
      let r := bodyFollow nh rest c
      (hold :: r.1, r.2)

/-- The engine state: the fields of `class SEngine` (grid size, remaining food,
score, snake cells head-first, food cell, last accepted direction, cached
render buffer) plus the explicit list of pending random draws. -/
structure SEngine where
  xsz : ℕ
  ysz : ℕ
  lv_food : ℕ
  score : ℕ
  snake : List Cell
  food : Cell
  prv_mv : Movement
  buffer : List Char
  rng : List Cell
deriving DecidableEq

/-- The direction clamp at the top of `SEngine::move`:
`mv = areOpposite(mv, prv_mv) ? prv_mv : mv`. -/
def effectiveMove (mv prv : Movement) : Movement :=
  if areOpposite mv prv then prv else mv

/-- `SEngine::move` after the direction clamp: bounds check, in-place head
update, self-collision count, body follow, food consumption, win/continue.
`none` only when the modelled random-draw list is exhausted (or the snake is
empty, which no reachable state exhibits). -/
def moveDir (s : SEngine) (mv : Movement) : Option (GameStatus × SEngine) :=
  match s.snake with
  | [] => none
  | hd :: tl =>
    if isInvalidMovement s.xsz s.ysz hd mv then some (.LOST, s)
    else
      let nh := stepCell hd mv
      let snake1 := nh :: tl
      if 1 < snake1.count nh then some (.LOST, { s with snake := snake1 })
      else
        let fb := bodyFollow nh snake1 hd
        if nh = s.food then
          let snake3 := fb.1 ++ [fb.2]
          match addnewfood s.xsz s.ysz snake3 s.rng with
          | none => none
          | some fr =>
            let s1 : SEngine :=
              { s with
                snake := snake3
                score := s.score + 1
                food := fr.1
                rng := fr.2
                lv_food := s.lv_food - 1 }
            if s.lv_food - 1 = 0 then some (.WIN, s1)
            else some (.NONE, { s1 with prv_mv := mv })
        else
          some (.NONE, { s with snake := fb.1, prv_mv := mv })

/-- Mirrors `SEngine::move` (lines 114-160): the clamp followed by the
post-clamp algorithm. -/
def move (s : SEngine) (mv : Movement) : Option (GameStatus × SEngine) :=
  moveDir s (effectiveMove mv s.prv_mv)

/-- The exact 180-degree opposite of a direction (used to state the clamp
claim; the code tests the same four pairs in `areOpposite`). -/
def opposite : Movement → Movement
  | .UP => .DOWN
  | .DOWN => .UP
  | .LEFT => .RIGHT
  | .RIGHT => .LEFT

/-! ## Rendering (`SEngine::to_wstr`) -/

/-- The glyph pair the incremental renderer writes for one playable cell:
head (`*snake.front() == hold`) and body (`find(hold)`) get a full-block pair,
food gets a filled circle and a space, an empty cell two spaces. -/
def cellGlyph (snake : List Cell) (food : Cell) (c : Cell) : Char × Char :=
  if snake.head? = some c then ('█', '█')
  else if findCell snake c then ('█', '█')
  else if c = food then ('●', ' ')
  else (' ', ' ')

/-- One horizontal border row of the first (full) render: `ysz+1` shade pairs
from the loop, one more pair, then a newline. -/
def borderRow (ysz : ℕ) : List Char :=
  List.replicate (2 * (ysz + 1)) '▒' ++ ['▒', '▒', '\n']

/-- The characters the full render emits while scanning one playable cell of an
interior row: left border pair at `y = 0`, two skipped (never-written) units
for the cell itself, right border pair and newline at `y = ysz - 1`. -/
def fullCellEmit (ysz : ℕ) (u : Char) (y : ℕ) : List Char :=
  (if y = 0 then ['▒', '▒'] else []) ++ [u, u] ++
  (if y = ysz - 1 then ['▒', '▒', '\n'] else [])

/-- One interior row of the full render. -/
def fullRowEmit (ysz : ℕ) (u : Char) : List Char :=
  (List.range ysz).flatMap (fullCellEmit ysz u)

/-- Placeholder for the indeterminate `malloc` contents of the interior cell
units the first render advances over without writing. -/
def uninitCell : Char := '?'

/-- The `L'\0'` terminator. -/
def nullChar : Char := Char.ofNat 0

/-- Everything `to_wstr(true)` emits before the terminator: top border, `xsz`
interior rows, bottom border. -/
def fullRenderList (xsz ysz : ℕ) (u : Char) : List Char :=
  borderRow ysz ++ (List.range xsz).flatMap (fun _ => fullRowEmit ysz u) ++ borderRow ysz

/-- The buffer as `to_wstr(true)` leaves it: the emitted characters followed by
the null terminator at index `length`. -/
def fullRenderBuf (xsz ysz : ℕ) : List Char :=
  fullRenderList xsz ysz uninitCell ++ [nullChar]

/-- The buffer-length macro `LENGTH(xsz, ysz) = ((xsz+2)*(ysz+2) << 1) + xsz + 2`. -/
def LENGTH (xsz ysz : ℕ) : ℕ :=
  ((xsz + 2) * (ysz + 2)) * 2 + xsz + 2

/-- One iteration of the inner loop of the incremental render (`to_wstr` with
`isFirstCall = false`): skip the left border at `y = 0`, overwrite the two
character units of cell `(x, y)` at the running index `k`, skip the right
border and newline at `y = ysz - 1`. -/
def cellStep (ysz : ℕ) (snake : List Cell) (food : Cell) (x : ℕ)
    (acc : ℕ × List Char) (y : ℕ) : ℕ × List Char :=
  let k0 := if y = 0 then acc.1 + 2 else acc.1
  let g := cellGlyph snake food ⟨x, y⟩
  let buf := (acc.2.set k0 g.1).set (k0 + 1) g.2
  let k1 := k0 + 2
  (if y = ysz - 1 then k1 + 3 else k1, buf)

/-- One interior row of the incremental render. -/
def rowStep (ysz : ℕ) (snake : List Cell) (food : Cell)
    (acc : ℕ × List Char) (x : ℕ) : ℕ × List Char :=
  (List.range ysz).foldl (cellStep ysz snake food x) acc

/-- The buffer after the incremental render, starting from
`k = ((ysz+1) << 1) + 3` as in the code. -/
def refreshBuf (s : SEngine) : List Char :=
  ((List.range s.xsz).foldl (rowStep s.ysz s.snake s.food) ((s.ysz + 1) * 2 + 3, s.buffer)).2

/-- The state after the caller invokes `to_wstr(false)`. -/
def refresh (s : SEngine) : SEngine :=
  { s with buffer := refreshBuf s }

/-- Index of the first character unit of playable cell `(x, y)` in the buffer:
row `x + 1` of the text starts at `(2*ysz+5)*(x+1)`, followed by the left
border pair and `y` earlier cell pairs. -/
def cellPos (ysz x y : ℕ) : ℕ :=
  (2 * ysz + 5) * (x + 1) + 2 + 2 * y

/-- Write a run of characters at consecutive indices (`List.set` ignores
indices past the end of the list, and the renderer never writes past the
buffer). -/
def writeSeq (buf : List Char) (i : ℕ) : List Char → List Char
  | [] => buf
  | c :: cs => writeSeq (buf.set i c) (i + 1) cs

/-- The glyph pairs of the cells `(x, a), ..., (x, a + m - 1)`, flattened in
order. -/
def rowGlyphs (snake : List Cell) (food : Cell) (x a m : ℕ) : List Char :=
  (List.range' a m).flatMap
    (fun y => [(cellGlyph snake food ⟨x, y⟩).1, (cellGlyph snake food ⟨x, y⟩).2])

/-! ## Construction (`SEngine::SEngine`) -/

/-- Result of running the constructor: an invalid-configuration throw, the
modelled random-draw list running out, or an engine state. -/
inductive InitResult
  | invalidConfig
  | rngOut
  | ok (s : SEngine)
deriving DecidableEq

/-- Mirrors the constructor `SEngine(xsz, ysz, lv_food, score)`: reject
`xsz < 9 || ysz < 9` and `lv_food <= 0`, place the two-cell snake at the grid
centre, place the food away from the snake, set the default orientation
`LEFT`, and run the first full render. -/
def construct (xsz ysz lv_food score : ℕ) (rng : List Cell) : InitResult :=
  if xsz < 9 ∨ ysz < 9 then .invalidConfig
  else if lv_food ≤ 0 then .invalidConfig
  else
    let snake : List Cell := [⟨xsz / 2, ysz / 2⟩, ⟨xsz / 2, ysz / 2 + 1⟩]
    match addnewfood xsz ysz snake rng with
    | none => .rngOut
    | some fr =>
      .ok { xsz := xsz
            ysz := ysz
            lv_food := lv_food
            score := score
            snake := snake
            food := fr.1
            prv_mv := .LEFT
            buffer := fullRenderBuf xsz ysz
            rng := fr.2 }

/-- Run a sequence of moves, continuing only while `move` keeps returning the
non-terminal status `NONE`. -/
def playMoves : SEngine → List Movement → Option SEngine
  | s, [] => some s
  | s, m :: rest =>
    match move s m with
    | some (.NONE, s1) => playMoves s1 rest
    | _ => none

/-! ## Concrete states used by the witnesses and the counterexample -/

/-- Concrete instance for `move_out_of_bounds_lost`: head at `(4, 0)`, moving
`LEFT` would reach column `-1`. -/
def c2state : SEngine :=
  ⟨9, 9, 1, 0, [⟨4, 0⟩, ⟨4, 1⟩], ⟨0, 0⟩, .LEFT, [], []⟩

/-- Concrete instance for `move_opposite_clamped`: last direction `LEFT`. -/
def c3state : SEngine :=
  ⟨9, 9, 1, 0, [⟨4, 4⟩, ⟨4, 5⟩], ⟨0, 0⟩, .LEFT, [], []⟩

/-- Concrete instance for `move_eat_grows`: head `(4, 4)`, food at `(4, 3)`,
one pending draw `(0, 0)` for the re-roll. -/
def c1state : SEngine :=
  ⟨9, 9, 2, 5, [⟨4, 4⟩, ⟨4, 5⟩], ⟨4, 3⟩, .LEFT, [], [⟨0, 0⟩]⟩

/-- The state the eating move of `c1state` produces. -/
def c1after : SEngine :=
  ⟨9, 9, 1, 6, [⟨4, 3⟩, ⟨4, 4⟩, ⟨4, 5⟩], ⟨0, 0⟩, .LEFT, [], []⟩

/-- Concrete instance for `move_eat_win_or_continue`: remaining food 1, so the
eating move must win. -/
def c5state : SEngine :=
  ⟨9, 9, 1, 0, [⟨4, 4⟩, ⟨4, 5⟩], ⟨4, 3⟩, .LEFT, [], [⟨0, 0⟩]⟩

/-- The winning state the eating move of `c5state` produces. -/
def c5after : SEngine :=
  ⟨9, 9, 0, 1, [⟨4, 3⟩, ⟨4, 4⟩, ⟨4, 5⟩], ⟨0, 0⟩, .LEFT, [], []⟩

/-- Concrete instance for `move_self_collision_lost`: a length-4 snake curled
so that moving `RIGHT` puts the head on the body cell `(4, 5)`. -/
def c4state : SEngine :=
  ⟨9, 9, 1, 0, [⟨4, 4⟩, ⟨5, 4⟩, ⟨5, 5⟩, ⟨4, 5⟩], ⟨0, 0⟩, .DOWN, [], []⟩

/-- Concrete instance for `move_onto_tail_lost`: a length-2 snake whose head
steps onto the tail cell `(4, 5)`. -/
def c10state : SEngine :=
  ⟨9, 9, 1, 0, [⟨4, 4⟩, ⟨4, 5⟩], ⟨0, 0⟩, .UP, [], []⟩

/-- The engine `construct 9 9 1 0 [(0, 0)]` produces. -/
def c6demo : SEngine :=
  ⟨9, 9, 1, 0, [⟨4, 4⟩, ⟨4, 5⟩], ⟨0, 0⟩, .LEFT, fullRenderBuf 9 9, []⟩

/-- The state one `LEFT` move after construction. -/
def c7after : SEngine :=
  ⟨9, 9, 1, 0, [⟨4, 3⟩, ⟨4, 4⟩], ⟨0, 0⟩, .LEFT, fullRenderBuf 9 9, []⟩

/-- The engine `construct 9 9 1 0 [(0, 0)]` produces (used for the render
claims). -/
def c8state : SEngine :=
  ⟨9, 9, 1, 0, [⟨4, 4⟩, ⟨4, 5⟩], ⟨0, 0⟩, .LEFT, fullRenderBuf 9 9, []⟩

/-- The state used to exhibit the stale buffer after a move. -/
def c9base : SEngine :=
  ⟨9, 9, 1, 0, [⟨4, 4⟩, ⟨4, 5⟩], ⟨0, 0⟩, .LEFT, fullRenderBuf 9 9, []⟩

/-- The state `move (refresh c9base) LEFT` produces: the snake advanced to
`[(4,3), (4,4)]` but the buffer still shows the old snake. -/
def c9after : SEngine :=
  { refresh c9base with snake := [⟨4, 3⟩, ⟨4, 4⟩] }

/-! ## Helper lemmas -/

/-- `getLast?` of a nonempty list agrees with `getLastD` for any default. -/
theorem getLast?_cons_getLastD :
    ∀ (l : List Cell) (a d : Cell), (a :: l).getLast? = some ((a :: l).getLastD d)
  | [], a, d => rfl
  | b :: l, a, d => by
    rw [List.getLast?_cons_cons, List.getLastD_cons]
    exact getLast?_cons_getLastD l b a

/-- Unfolding equation for the loop body of `bodyFollow`. -/
theorem bodyFollow_cons (nh c : Cell) (rest : List Cell) (hold : Cell) :
    bodyFollow nh (c :: rest) hold =
      if c = nh then (c :: (bodyFollow nh rest hold).1, (bodyFollow nh rest hold).2)
      else (hold :: (bodyFollow nh rest c).1, (bodyFollow nh rest c).2) := rfl

/-- The body-follow loop on a list that nowhere equals the new head shifts
every cell to its predecessor's position and leaves the old tail in `hold`. -/
theorem bodyFollow_of_not_mem (nh : Cell) :
    ∀ (cells : List Cell) (hold : Cell), nh ∉ cells → cells ≠ [] →
      bodyFollow nh cells hold = (hold :: cells.dropLast, cells.getLastD hold)
  | [], _, _, hne => absurd rfl hne
  | c :: rest, hold, hmem, _ => by
    have hc : ¬ c = nh := fun h => hmem (h ▸ List.mem_cons_self c rest)
    cases rest with
    | nil => rw [bodyFollow_cons, if_neg hc]; rfl
    | cons b l =>
      have hrec := bodyFollow_of_not_mem nh (b :: l) c
        (fun h => hmem (List.mem_cons_of_mem c h)) (List.cons_ne_nil b l)
      rw [bodyFollow_cons, if_neg hc, hrec, List.dropLast_cons₂]
      simp [List.getLastD_cons]
      rw [getLast?_cons_getLastD l b c]
      rfl

/-- The body-follow loop as `move` invokes it: the (already updated) head is
skipped by the `*c == *snake.front()` test, the remaining cells shift, and the
returned `hold` is the position the previous tail vacated. -/
theorem bodyFollow_shift (nh hd : Cell) (tl : List Cell) (h : nh ∉ tl) :
    bodyFollow nh (nh :: tl) hd =
      (nh :: (hd :: tl).dropLast, (hd :: tl).getLastD nh) := by
  cases tl with
  | nil => rw [bodyFollow_cons, if_pos rfl]; rfl
  | cons b l =>
    have hrec := bodyFollow_of_not_mem nh (b :: l) hd h (List.cons_ne_nil b l)
    rw [bodyFollow_cons, if_pos rfl, hrec, List.dropLast_cons₂]
    simp [List.getLastD_cons]
    rw [getLast?_cons_getLastD l b hd]
    rfl

/-- A food cell accepted by the rejection-sampling loop misses every snake
cell. -/
theorem addnewfood_not_mem (xsz ysz : ℕ) (snake : List Cell) :
    ∀ (rng : List Cell) {f : Cell} {rest : List Cell},
      addnewfood xsz ysz snake rng = some (f, rest) → f ∉ snake := by
  intro rng
  induction rng with
  | nil => intro f rest h; exact absurd h (by simp [addnewfood])
  | cons draw rng ih =>
    intro f rest h
    simp only [addnewfood] at h
    by_cases hh : snake.any (· == generate xsz ysz draw) = true
    · rw [if_pos hh] at h
      exact ih h
    · rw [if_neg hh] at h
      injection h with h1
      injection h1 with h2 h3
      intro hmem
      exact hh (List.any_eq_true.mpr ⟨f, hmem, by rw [h2]; exact beq_self_eq_true f⟩)


/-- `writeSeq` never changes the buffer length. -/
theorem writeSeq_length : ∀ (cs buf : List Char) (i : ℕ),
    (writeSeq buf i cs).length = buf.length
  | [], _, _ => rfl
  | c :: cs, buf, i => by
    show (writeSeq (buf.set i c) (i + 1) cs).length = buf.length
    rw [writeSeq_length cs, List.length_set]

/-- `writeSeq` splits over an append of the written runs. -/
theorem writeSeq_append : ∀ (cs ds buf : List Char) (i : ℕ),
    writeSeq buf i (cs ++ ds) = writeSeq (writeSeq buf i cs) (i + cs.length) ds
  | [], ds, buf, i => by
    show writeSeq buf i ds = writeSeq buf (i + 0) ds
    rw [Nat.add_zero]
  | c :: cs, ds, buf, i => by
    show writeSeq (buf.set i c) (i + 1) (cs ++ ds) =
      writeSeq (writeSeq (buf.set i c) (i + 1) cs) (i + (cs.length + 1)) ds
    rw [writeSeq_append cs ds]
    have h : i + 1 + cs.length = i + (cs.length + 1) := by omega
    rw [h]

/-- Pointwise description of `writeSeq`: inside the written window (and inside
the buffer) the run is read back, elsewhere the old buffer shows through. -/
theorem writeSeq_getElem? : ∀ (cs buf : List Char) (i j : ℕ),
    (writeSeq buf i cs)[j]? =
      if i ≤ j ∧ j < i + cs.length ∧ j < buf.length then cs[j - i]? else buf[j]?
  | [], buf, i, j => by
    have hc : ¬ (i ≤ j ∧ j < i + ([] : List Char).length ∧ j < buf.length) := by
      simp only [List.length_nil, Nat.add_zero]
      omega
    rw [if_neg hc]
    rfl
  | c :: cs, buf, i, j => by
    show (writeSeq (buf.set i c) (i + 1) cs)[j]? = _
    rw [writeSeq_getElem? cs]
    simp only [List.length_set, List.length_cons]
    by_cases hij : i = j
    · subst hij
      rw [if_neg (by omega)]
      rw [List.getElem?_set, if_pos rfl]
      by_cases hlen : i < buf.length
      · rw [if_pos hlen, if_pos (by omega)]
        simp
      · rw [if_neg hlen, if_neg (by omega)]
        exact (List.getElem?_eq_none (by omega)).symm
    · by_cases hcond : i + 1 ≤ j ∧ j < i + 1 + cs.length ∧ j < buf.length
      · rw [if_pos hcond, if_pos (by omega)]
        obtain ⟨m, hm⟩ : ∃ m, j = i + 1 + m := ⟨j - (i + 1), by omega⟩
        subst hm
        have h1 : i + 1 + m - (i + 1) = m := by omega
        have h2 : i + 1 + m - i = m + 1 := by omega
        rw [h1, h2, List.getElem?_cons_succ]
      · rw [if_neg hcond, if_neg (by omega), List.getElem?_set_ne hij]

/-- Length of a flattened run of glyph pairs. -/
theorem rowGlyphs_length (snake : List Cell) (food : Cell) (x : ℕ) :
    ∀ (m a : ℕ), (rowGlyphs snake food x a m).length = 2 * m := by
  intro m
  induction m with
  | zero => intro a; rfl
  | succ n ih =>
    intro a
    have hn := ih (a + 1)
    simp only [rowGlyphs, List.range'_succ, List.flatMap_cons] at hn ⊢
    rw [List.length_append, hn]
    simp only [List.length_cons, List.length_nil]
    omega

/-- Reading glyph `t` of a flattened run of glyph pairs. -/
theorem rowGlyphs_getElem (snake : List Cell) (food : Cell) (x : ℕ) :
    ∀ (m a t : ℕ), t < m →
      (rowGlyphs snake food x a m)[2 * t]? = some (cellGlyph snake food ⟨x, a + t⟩).1 ∧
      (rowGlyphs snake food x a m)[2 * t + 1]? = some (cellGlyph snake food ⟨x, a + t⟩).2 := by
  intro m
  induction m with
  | zero => intro a t ht; exact absurd ht (by omega)
  | succ n ih =>
    intro a t ht
    simp only [rowGlyphs, List.range'_succ, List.flatMap_cons, List.cons_append,
      List.nil_append]
    cases t with
    | zero =>
      refine ⟨?_, ?_⟩ <;> simp
    | succ u =>
      have hu := ih (a + 1) u (by omega)
      simp only [rowGlyphs] at hu
      have ha : a + 1 + u = a + (u + 1) := by omega
      rw [ha] at hu
      constructor
      · rw [show 2 * (u + 1) = 2 * u + 1 + 1 from by omega]
        rw [List.getElem?_cons_succ, List.getElem?_cons_succ]
        exact hu.1
      · rw [show 2 * (u + 1) + 1 = 2 * u + 1 + 1 + 1 from by omega]
        rw [List.getElem?_cons_succ, List.getElem?_cons_succ]
        exact hu.2


/-- Taking one render step on a middle cell (`y ≠ 0`, `y ≠ ysz - 1`): write
the glyph pair at `k` and advance by two. -/
theorem cellStep_middle (ysz : ℕ) (snake : List Cell) (food : Cell) (x y : ℕ)
    (buf : List Char) (k : ℕ) (h0 : ¬ y = 0) (h1 : ¬ y = ysz - 1) :
    cellStep ysz snake food x (k, buf) y =
      (k + 2,
       (buf.set k (cellGlyph snake food ⟨x, y⟩).1).set
         (k + 1) (cellGlyph snake food ⟨x, y⟩).2) := by
  simp only [cellStep, if_neg h0, if_neg h1]

/-- The inner render loop over middle cells `a, ..., a + m - 1` (with
`1 ≤ a` and `a + m ≤ ysz - 1`, so neither border adjustment fires) writes
their glyph pairs consecutively and advances `k` by two per cell. -/
theorem foldl_cellStep_middle (ysz : ℕ) (snake : List Cell) (food : Cell) (x : ℕ) :
    ∀ (m a : ℕ) (buf : List Char), 1 ≤ a → a + m ≤ ysz - 1 →
      (List.range' a m).foldl (cellStep ysz snake food x) (cellPos ysz x a, buf) =
        (cellPos ysz x (a + m),
         writeSeq buf (cellPos ysz x a) (rowGlyphs snake food x a m)) := by
  intro m
  induction m with
  | zero =>
    intro a buf h1 h2
    show (cellPos ysz x a, buf) = _
    rw [Nat.add_zero]
    rfl
  | succ n ih =>
    intro a buf h1 h2
    rw [List.range'_succ, List.foldl_cons]
    rw [cellStep_middle ysz snake food x a buf (cellPos ysz x a) (by omega) (by omega)]
    rw [show cellPos ysz x a + 2 = cellPos ysz x (a + 1) from by
      simp only [cellPos]; omega]
    rw [ih (a + 1) _ (by omega) (by omega)]
    have hbuf : writeSeq buf (cellPos ysz x a) (rowGlyphs snake food x a (n + 1)) =
        writeSeq ((buf.set (cellPos ysz x a) (cellGlyph snake food ⟨x, a⟩).1).set
            (cellPos ysz x a + 1) (cellGlyph snake food ⟨x, a⟩).2)
          (cellPos ysz x (a + 1)) (rowGlyphs snake food x (a + 1) n) := by
      rw [rowGlyphs, List.range'_succ, List.flatMap_cons]
      simp only [List.cons_append, List.nil_append]
      show writeSeq ((buf.set (cellPos ysz x a) (cellGlyph snake food ⟨x, a⟩).1).set
          (cellPos ysz x a + 1) (cellGlyph snake food ⟨x, a⟩).2)
        (cellPos ysz x a + 1 + 1) _ = _
      rw [show cellPos ysz x a + 1 + 1 = cellPos ysz x (a + 1) from by
        simp only [cellPos]; omega]
      rfl
    rw [hbuf, show a + 1 + n = a + (n + 1) from by omega]

/-- One full pass of the inner render loop over row `x`: starting from the row
base index `(2*ysz+5)*(x+1)` it writes the row's `ysz` glyph pairs starting at
`cellPos ysz x 0` and stops at the next row base. -/
theorem rowStep_spec (ysz : ℕ) (snake : List Cell) (food : Cell) (x : ℕ) (hy : 1 ≤ ysz)
    (buf : List Char) :
    rowStep ysz snake food ((2 * ysz + 5) * (x + 1), buf) x =
      ((2 * ysz + 5) * (x + 2),
       writeSeq buf (cellPos ysz x 0) (rowGlyphs snake food x 0 ysz)) := by
  rcases Nat.lt_or_ge ysz 2 with h2 | h2
  · obtain rfl : ysz = 1 := by omega
    show (List.range 1).foldl (cellStep 1 snake food x) ((2 * 1 + 5) * (x + 1), buf) = _
    rw [show List.range 1 = [0] from rfl, List.foldl_cons, List.foldl_nil]
    have hc : cellStep 1 snake food x ((2 * 1 + 5) * (x + 1), buf) 0 =
        ((2 * 1 + 5) * (x + 1) + 2 + 2 + 3,
         (buf.set ((2 * 1 + 5) * (x + 1) + 2) (cellGlyph snake food ⟨x, 0⟩).1).set
           ((2 * 1 + 5) * (x + 1) + 2 + 1) (cellGlyph snake food ⟨x, 0⟩).2) := by
      norm_num [cellStep]
    rw [hc]
    rw [show (2 * 1 + 5) * (x + 1) + 2 + 2 + 3 = (2 * 1 + 5) * (x + 2) from by omega]
    rw [show (2 * 1 + 5) * (x + 1) + 2 = cellPos 1 x 0 from by simp [cellPos]]
    rfl
  · obtain ⟨n, rfl⟩ : ∃ n, ysz = n + 2 := ⟨ysz - 2, by omega⟩
    show (List.range (n + 2)).foldl (cellStep (n + 2) snake food x)
      ((2 * (n + 2) + 5) * (x + 1), buf) = _
    have hr : List.range (n + 2) = 0 :: (List.range' 1 n ++ [1 + n]) := by
      rw [List.range_eq_range']
      rw [show n + 2 = (n + 1) + 1 from rfl, List.range'_succ, List.range'_1_concat]
    rw [hr, List.foldl_cons]
    have hc0 : cellStep (n + 2) snake food x ((2 * (n + 2) + 5) * (x + 1), buf) 0 =
        (cellPos (n + 2) x 1,
         (buf.set (cellPos (n + 2) x 0) (cellGlyph snake food ⟨x, 0⟩).1).set
           (cellPos (n + 2) x 0 + 1) (cellGlyph snake food ⟨x, 0⟩).2) := by
      simp only [cellStep, if_true]
      rw [if_neg (by omega : ¬ (0 : ℕ) = n + 2 - 1)]
      rw [show (2 * (n + 2) + 5) * (x + 1) + 2 = cellPos (n + 2) x 0 from by
        simp [cellPos]]
      rw [show cellPos (n + 2) x 0 + 2 = cellPos (n + 2) x 1 from by
        simp [cellPos]]
    rw [hc0, List.foldl_append]
    rw [foldl_cellStep_middle (n + 2) snake food x n 1 _ (by omega) (by omega)]
    rw [List.foldl_cons, List.foldl_nil]
    have hcl : ∀ b : List Char,
        cellStep (n + 2) snake food x (cellPos (n + 2) x (1 + n), b) (1 + n) =
          ((2 * (n + 2) + 5) * (x + 2),
           (b.set (cellPos (n + 2) x (1 + n)) (cellGlyph snake food ⟨x, 1 + n⟩).1).set
             (cellPos (n + 2) x (1 + n) + 1) (cellGlyph snake food ⟨x, 1 + n⟩).2) := by
      intro b
      simp only [cellStep]
      rw [if_neg (by omega : ¬ 1 + n = 0), if_pos (by omega : 1 + n = n + 2 - 1)]
      rw [show cellPos (n + 2) x (1 + n) + 2 + 3 = (2 * (n + 2) + 5) * (x + 2) from by
        have hms : (2 * (n + 2) + 5) * (x + 2) =
            (2 * (n + 2) + 5) * (x + 1) + (2 * (n + 2) + 5) := by ring
        simp only [cellPos]
        omega]
    rw [hcl]
    have hsplit : writeSeq buf (cellPos (n + 2) x 0) (rowGlyphs snake food x 0 (n + 2)) =
        ((writeSeq ((buf.set (cellPos (n + 2) x 0) (cellGlyph snake food ⟨x, 0⟩).1).set
              (cellPos (n + 2) x 0 + 1) (cellGlyph snake food ⟨x, 0⟩).2)
            (cellPos (n + 2) x 1) (rowGlyphs snake food x 1 n)).set
          (cellPos (n + 2) x (1 + n)) (cellGlyph snake food ⟨x, 1 + n⟩).1).set
          (cellPos (n + 2) x (1 + n) + 1) (cellGlyph snake food ⟨x, 1 + n⟩).2 := by
      rw [rowGlyphs]
      rw [show List.range' 0 (n + 2) = 0 :: (List.range' 1 n ++ [1 + n]) from by
        rw [show n + 2 = (n + 1) + 1 from rfl, List.range'_succ, List.range'_1_concat]]
      rw [List.flatMap_cons, List.flatMap_append]
      simp only [List.cons_append, List.nil_append, List.flatMap_cons, List.flatMap_nil,
        List.append_nil]
      show writeSeq ((buf.set (cellPos (n + 2) x 0) (cellGlyph snake food ⟨x, 0⟩).1).set
          (cellPos (n + 2) x 0 + 1) (cellGlyph snake food ⟨x, 0⟩).2)
        (cellPos (n + 2) x 0 + 1 + 1)
        (((List.range' 1 n).flatMap fun y =>
            [(cellGlyph snake food ⟨x, y⟩).1, (cellGlyph snake food ⟨x, y⟩).2]) ++
          [(cellGlyph snake food ⟨x, 1 + n⟩).1, (cellGlyph snake food ⟨x, 1 + n⟩).2]) = _
      rw [show cellPos (n + 2) x 0 + 1 + 1 = cellPos (n + 2) x 1 from by
        simp [cellPos]]
      rw [writeSeq_append]
      rw [show ((List.range' 1 n).flatMap fun y =>
          [(cellGlyph snake food ⟨x, y⟩).1, (cellGlyph snake food ⟨x, y⟩).2]) =
          rowGlyphs snake food x 1 n from rfl]
      rw [rowGlyphs_length]
      rw [show cellPos (n + 2) x 1 + 2 * n = cellPos (n + 2) x (1 + n) from by
        simp only [cellPos]; omega]
      rfl
    rw [hsplit]

/-- Interior spans of two different rows never overlap. -/
theorem rowSpan_disjoint (ysz x x2 j : ℕ) (hx : x < x2)
    (h1 : cellPos ysz x 0 ≤ j ∧ j < cellPos ysz x 0 + 2 * ysz) :
    ¬ (cellPos ysz x2 0 ≤ j ∧ j < cellPos ysz x2 0 + 2 * ysz) := by
  intro h2
  have hm : (2 * ysz + 5) * (x + 2) ≤ (2 * ysz + 5) * (x2 + 1) :=
    Nat.mul_le_mul_left _ (by omega)
  have he : (2 * ysz + 5) * (x + 2) = (2 * ysz + 5) * (x + 1) + (2 * ysz + 5) := by ring
  simp only [cellPos] at h1 h2
  omega

/-- The outer render loop over rows `a, ..., a + m - 1`: it stops at the base
of row `a + m + 1` of the text, keeps the buffer length, overwrites exactly
the row interiors with the rows' glyph pairs, and leaves every other index
untouched. -/
theorem foldl_rowStep_spec (ysz : ℕ) (snake : List Cell) (food : Cell) (hy : 1 ≤ ysz) :
    ∀ (m a : ℕ) (buf : List Char) (k2 : ℕ) (buf2 : List Char),
      (2 * ysz + 5) * (a + 1 + m) ≤ buf.length →
      (List.range' a m).foldl (rowStep ysz snake food) ((2 * ysz + 5) * (a + 1), buf)
        = (k2, buf2) →
      k2 = (2 * ysz + 5) * (a + 1 + m) ∧
      buf2.length = buf.length ∧
      (∀ x y, a ≤ x → x < a + m → y < ysz →
        buf2[cellPos ysz x y]? = some (cellGlyph snake food ⟨x, y⟩).1 ∧
        buf2[cellPos ysz x y + 1]? = some (cellGlyph snake food ⟨x, y⟩).2) ∧
      (∀ j, (∀ x, a ≤ x → x < a + m →
          ¬ (cellPos ysz x 0 ≤ j ∧ j < cellPos ysz x 0 + 2 * ysz)) →
        buf2[j]? = buf[j]?) := by
  intro m
  induction m with
  | zero =>
    intro a buf k2 buf2 hlen heq
    simp only [show List.range' a 0 = [] from rfl, List.foldl_nil, Prod.mk.injEq] at heq
    obtain ⟨hk, hb⟩ := heq
    subst hk
    subst hb
    refine ⟨rfl, rfl, ?_, ?_⟩
    · intro x y hax hxm hyy
      exact absurd (Nat.lt_of_le_of_lt hax hxm) (by omega)
    · intro j hj
      rfl
  | succ n ih =>
    intro a buf k2 buf2 hlen heq
    rw [List.range'_succ, List.foldl_cons, rowStep_spec ysz snake food a hy buf] at heq
    rw [show (2 * ysz + 5) * (a + 2) = (2 * ysz + 5) * (a + 1 + 1) from by ring] at heq
    have hlen1 : (2 * ysz + 5) * (a + 1 + 1 + n) ≤
        (writeSeq buf (cellPos ysz a 0) (rowGlyphs snake food a 0 ysz)).length := by
      rw [writeSeq_length]
      have : (2 * ysz + 5) * (a + 1 + 1 + n) = (2 * ysz + 5) * (a + 1 + (n + 1)) := by ring
      omega
    obtain ⟨ih1, ih2, ih3, ih4⟩ := ih (a + 1) _ k2 buf2 hlen1 heq
    have hspan_a : ∀ y, y < ysz →
        (cellPos ysz a 0 ≤ cellPos ysz a y ∧
         cellPos ysz a y < cellPos ysz a 0 + 2 * ysz) ∧
        (cellPos ysz a 0 ≤ cellPos ysz a y + 1 ∧
         cellPos ysz a y + 1 < cellPos ysz a 0 + 2 * ysz) := by
      intro y hyy
      simp only [cellPos]
      omega
    have hbuflt : cellPos ysz a 0 + 2 * ysz ≤ buf.length := by
      have he : (2 * ysz + 5) * (a + 2) = (2 * ysz + 5) * (a + 1) + (2 * ysz + 5) := by ring
      have hm : (2 * ysz + 5) * (a + 2) ≤ (2 * ysz + 5) * (a + 1 + (n + 1)) :=
        Nat.mul_le_mul_left _ (by omega)
      simp only [cellPos]
      omega
    refine ⟨?_, ?_, ?_, ?_⟩
    · rw [ih1]
      ring
    · rw [ih2, writeSeq_length]
    · intro x y hax hxm hyy
      rcases Nat.lt_or_ge x (a + 1) with hxa | hxa
      · obtain rfl : a = x := by omega
        have hnospan : ∀ x2, a + 1 ≤ x2 → x2 < a + 1 + n →
            ¬ (cellPos ysz x2 0 ≤ cellPos ysz a y ∧
               cellPos ysz a y < cellPos ysz x2 0 + 2 * ysz) := by
          intro x2 h1 h2
          exact rowSpan_disjoint ysz a x2 (cellPos ysz a y) (by omega)
            ((hspan_a y hyy).1)
        have hnospan1 : ∀ x2, a + 1 ≤ x2 → x2 < a + 1 + n →
            ¬ (cellPos ysz x2 0 ≤ cellPos ysz a y + 1 ∧
               cellPos ysz a y + 1 < cellPos ysz x2 0 + 2 * ysz) := by
          intro x2 h1 h2
          exact rowSpan_disjoint ysz a x2 (cellPos ysz a y + 1) (by omega)
            ((hspan_a y hyy).2)
        rw [ih4 (cellPos ysz a y) hnospan, ih4 (cellPos ysz a y + 1) hnospan1]
        rw [writeSeq_getElem?, writeSeq_getElem?]
        rw [if_pos ?c1, if_pos ?c2]
        case c1 =>
          rw [rowGlyphs_length]
          refine ⟨(hspan_a y hyy).1.1, ?_, ?_⟩
          · have := (hspan_a y hyy).1.2
            omega
          · have := (hspan_a y hyy).1.2
            omega
        case c2 =>
          rw [rowGlyphs_length]
          refine ⟨(hspan_a y hyy).2.1, ?_, ?_⟩
          · have := (hspan_a y hyy).2.2
            omega
          · have := (hspan_a y hyy).2.2
            omega
        have hsub : cellPos ysz a y - cellPos ysz a 0 = 2 * y := by
          simp only [cellPos]
          omega
        have hsub1 : cellPos ysz a y + 1 - cellPos ysz a 0 = 2 * y + 1 := by
          simp only [cellPos]
          omega
        rw [hsub, hsub1]
        have hg := rowGlyphs_getElem snake food a ysz 0 y hyy
        rw [Nat.zero_add] at hg
        exact ⟨hg.1, hg.2⟩
      · exact ih3 x y hxa (by omega) hyy
    · intro j hj
      have hj1 : ∀ x2, a + 1 ≤ x2 → x2 < a + 1 + n →
          ¬ (cellPos ysz x2 0 ≤ j ∧ j < cellPos ysz x2 0 + 2 * ysz) := by
        intro x2 h1 h2
        exact hj x2 (by omega) (by omega)
      rw [ih4 j hj1, writeSeq_getElem?]
      rw [if_neg ?cno]
      case cno =>
        intro hcon
        exact hj a (by omega) (by omega) ⟨hcon.1, by
          have := hcon.2.1
          rw [rowGlyphs_length] at this
          omega⟩

/-- What one call of the incremental render (`to_wstr(false)`) guarantees:
the buffer keeps its length, every interior cell unit now shows the glyph
pair of the current state, and everything else (borders, newlines, the
terminator) is untouched. -/
theorem refreshBuf_spec (s : SEngine) (hy : 1 ≤ s.ysz)
    (hlen : (2 * s.ysz + 5) * (s.xsz + 1) ≤ s.buffer.length) :
    (refreshBuf s).length = s.buffer.length ∧
    (∀ x y, x < s.xsz → y < s.ysz →
      (refreshBuf s)[cellPos s.ysz x y]? = some (cellGlyph s.snake s.food ⟨x, y⟩).1 ∧
      (refreshBuf s)[cellPos s.ysz x y + 1]? = some (cellGlyph s.snake s.food ⟨x, y⟩).2) ∧
    (∀ j, (∀ x, x < s.xsz →
        ¬ (cellPos s.ysz x 0 ≤ j ∧ j < cellPos s.ysz x 0 + 2 * s.ysz)) →
      (refreshBuf s)[j]? = s.buffer[j]?) := by
  have hrb : refreshBuf s =
      ((List.range' 0 s.xsz).foldl (rowStep s.ysz s.snake s.food)
        ((2 * s.ysz + 5) * (0 + 1), s.buffer)).2 := by
    simp only [refreshBuf, List.range_eq_range']
    rw [show (s.ysz + 1) * 2 + 3 = (2 * s.ysz + 5) * (0 + 1) from by ring]
  have hlen2 : (2 * s.ysz + 5) * (0 + 1 + s.xsz) ≤ s.buffer.length := by
    rw [show (2 * s.ysz + 5) * (0 + 1 + s.xsz) = (2 * s.ysz + 5) * (s.xsz + 1) from by ring]
    exact hlen
  obtain ⟨k1, k2, k3, k4⟩ := foldl_rowStep_spec s.ysz s.snake s.food hy s.xsz 0 s.buffer
    ((List.range' 0 s.xsz).foldl (rowStep s.ysz s.snake s.food)
      ((2 * s.ysz + 5) * (0 + 1), s.buffer)).1
    ((List.range' 0 s.xsz).foldl (rowStep s.ysz s.snake s.food)
      ((2 * s.ysz + 5) * (0 + 1), s.buffer)).2
    hlen2 rfl
  rw [hrb]
  refine ⟨k2, ?_, ?_⟩
  · intro x y hx hyy
    exact k3 x y (by omega) (by omega) hyy
  · intro j hj
    refine k4 j ?_
    intro x hx1 hx2
    exact hj x (by omega)


/-- Length of one full-render border row. -/
theorem borderRow_length (ysz : ℕ) : (borderRow ysz).length = 2 * ysz + 5 := by
  rw [borderRow, List.length_append, List.length_replicate]
  simp only [List.length_cons, List.length_nil]
  omega

/-- The full render emits exactly two characters per middle cell. -/
theorem fullRowEmit_middle_length (ysz : ℕ) (u : Char) :
    ∀ (m a : ℕ), 1 ≤ a → a + m ≤ ysz - 1 →
      ((List.range' a m).flatMap (fullCellEmit ysz u)).length = 2 * m := by
  intro m
  induction m with
  | zero => intro a h1 h2; rfl
  | succ n ih =>
    intro a h1 h2
    rw [List.range'_succ, List.flatMap_cons, List.length_append]
    rw [ih (a + 1) (by omega) (by omega)]
    rw [fullCellEmit, if_neg (by omega : ¬ a = 0), if_neg (by omega : ¬ a = ysz - 1)]
    simp only [List.nil_append, List.append_nil, List.length_cons, List.length_nil]
    omega

/-- The full render emits `2*ysz + 5` characters per interior row. -/
theorem fullRowEmit_length (ysz : ℕ) (u : Char) (hy : 1 ≤ ysz) :
    (fullRowEmit ysz u).length = 2 * ysz + 5 := by
  rcases Nat.lt_or_ge ysz 2 with h2 | h2
  · obtain rfl : ysz = 1 := by omega
    rfl
  · obtain ⟨n, rfl⟩ : ∃ n, ysz = n + 2 := ⟨ysz - 2, by omega⟩
    rw [fullRowEmit]
    rw [show List.range (n + 2) = 0 :: (List.range' 1 n ++ [1 + n]) from by
      rw [List.range_eq_range', show n + 2 = (n + 1) + 1 from rfl, List.range'_succ,
        List.range'_1_concat]]
    rw [List.flatMap_cons, List.flatMap_append, List.flatMap_cons, List.flatMap_nil]
    rw [List.length_append, List.length_append]
    rw [fullRowEmit_middle_length (n + 2) u n 1 (by omega) (by omega)]
    rw [show fullCellEmit (n + 2) u 0 = ['▒', '▒'] ++ [u, u] ++ [] from by
      rw [fullCellEmit, if_pos rfl, if_neg (by omega : ¬ (0 : ℕ) = n + 2 - 1)]]
    rw [show fullCellEmit (n + 2) u (1 + n) = [] ++ [u, u] ++ ['▒', '▒', '\n'] from by
      rw [fullCellEmit, if_neg (by omega : ¬ 1 + n = 0),
        if_pos (by omega : 1 + n = n + 2 - 1)]]
    simp only [List.append_nil, List.nil_append, List.length_append, List.length_cons,
      List.length_nil]
    omega

/-- Total emission of the `xsz` identical interior rows. -/
theorem flatMapRows_length (n : ℕ) (L : List Char) :
    ((List.range n).flatMap (fun _ => L)).length = n * L.length := by
  induction n with
  | zero => simp
  | succ k ih =>
    rw [List.range_succ, List.flatMap_append, List.length_append, ih]
    simp only [List.flatMap_cons, List.flatMap_nil, List.append_nil]
    ring

/-- The number of character units the first full render advances over equals
the `LENGTH` macro. -/
theorem fullRenderList_length (xsz ysz : ℕ) (u : Char) (hy : 1 ≤ ysz) :
    (fullRenderList xsz ysz u).length = LENGTH xsz ysz := by
  rw [fullRenderList, List.length_append, List.length_append, borderRow_length,
    flatMapRows_length, fullRowEmit_length ysz u hy, LENGTH]
  ring


/-- `move` never touches the cached render buffer or the grid dimensions: no
branch of it writes `buffer`, `xsz` or `ysz`. -/
theorem move_fields_fixed (s : SEngine) (mv : Movement) (st : GameStatus) (s1 : SEngine)
    (hmv : move s mv = some (st, s1)) :
    s1.buffer = s.buffer ∧ s1.xsz = s.xsz ∧ s1.ysz = s.ysz := by
  rcases hsn : s.snake with _ | ⟨hd, tl⟩
  · simp only [move, moveDir, hsn] at hmv
    exact absurd hmv (by simp)
  · simp only [move, moveDir, hsn] at hmv
    split at hmv
    · simp only [Option.some.injEq, Prod.mk.injEq] at hmv
      obtain ⟨-, hs1⟩ := hmv
      subst hs1
      exact ⟨rfl, rfl, rfl⟩
    · split at hmv
      · simp only [Option.some.injEq, Prod.mk.injEq] at hmv
        obtain ⟨-, hs1⟩ := hmv
        subst hs1
        exact ⟨rfl, rfl, rfl⟩
      · split at hmv
        · split at hmv
          · exact absurd hmv (by simp)
          · split at hmv
            · simp only [Option.some.injEq, Prod.mk.injEq] at hmv
              obtain ⟨-, hs1⟩ := hmv
              subst hs1
              exact ⟨rfl, rfl, rfl⟩
            · simp only [Option.some.injEq, Prod.mk.injEq] at hmv
              obtain ⟨-, hs1⟩ := hmv
              subst hs1
              exact ⟨rfl, rfl, rfl⟩
        · simp only [Option.some.injEq, Prod.mk.injEq] at hmv
          obtain ⟨-, hs1⟩ := hmv
          subst hs1
          exact ⟨rfl, rfl, rfl⟩

/-! ## Theorems -/

/-- Claim C2: if the (possibly clamped) direction carries the head out of
`[0, xsz) × [0, ysz)`, `move` returns `Loss` and the post-call state is the
pre-call state: snake, food, score, remaining food, direction and buffer are
all untouched. -/
theorem move_out_of_bounds_lost (s : SEngine) (mv : Movement) (hd : Cell) (tl : List Cell)
    (hs : s.snake = hd :: tl)
    (hinv : isInvalidMovement s.xsz s.ysz hd (effectiveMove mv s.prv_mv) = true) :
    move s mv = some (.LOST, s) := by
  simp only [move, moveDir, hs, hinv, if_true]

/-- Witness for claim C2 at a concrete state. -/
theorem move_out_of_bounds_lost_witness :
    move c2state .LEFT = some (.LOST, c2state) :=
  move_out_of_bounds_lost c2state .LEFT ⟨4, 0⟩ [⟨4, 1⟩] rfl (by decide)

/-- Claim C3: requesting the exact opposite of the last accepted direction
behaves exactly like requesting the last accepted direction itself, while a
request that is not the exact opposite (the same direction or a perpendicular
one) is passed to the post-clamp algorithm verbatim. -/
theorem move_opposite_clamped (s : SEngine) (mv : Movement) :
    move s (opposite s.prv_mv) = move s s.prv_mv ∧
    (areOpposite mv s.prv_mv = false → move s mv = moveDir s mv) := by
  constructor
  · show moveDir s (effectiveMove (opposite s.prv_mv) s.prv_mv) =
      moveDir s (effectiveMove s.prv_mv s.prv_mv)
    cases s.prv_mv <;> rfl
  · intro h
    simp only [move, effectiveMove, h, Bool.false_eq_true, if_false]

/-- Witness for claim C3 at a concrete state: a `RIGHT` request with last
direction `LEFT` moves left, and a perpendicular `UP` request is applied
verbatim. -/
theorem move_opposite_clamped_witness :
    move c3state (opposite c3state.prv_mv) = move c3state c3state.prv_mv ∧
    move c3state .UP = moveDir c3state .UP :=
  ⟨(move_opposite_clamped c3state .UP).1,
   (move_opposite_clamped c3state .UP).2 (by decide)⟩

/-- Claim C4: an in-bounds move whose candidate head coincides with more than
one snake cell (counting the new head itself) returns `Loss`; the in-place
head update is retained but the body, food, score, remaining food and last
direction are untouched. -/
theorem move_self_collision_lost (s : SEngine) (mv : Movement) (hd : Cell) (tl : List Cell)
    (hs : s.snake = hd :: tl)
    (hok : isInvalidMovement s.xsz s.ysz hd (effectiveMove mv s.prv_mv) = false)
    (hcol : 1 < (stepCell hd (effectiveMove mv s.prv_mv) :: tl).count
      (stepCell hd (effectiveMove mv s.prv_mv))) :
    move s mv =
      some (.LOST, { s with snake := stepCell hd (effectiveMove mv s.prv_mv) :: tl }) := by
  simp only [move, moveDir, hs, hok, Bool.false_eq_true, if_false, if_pos hcol]

/-- Witness for claim C4 at a concrete state. -/
theorem move_self_collision_lost_witness :
    move c4state .RIGHT =
      some (.LOST, { c4state with snake := [⟨4, 5⟩, ⟨5, 4⟩, ⟨5, 5⟩, ⟨4, 5⟩] }) :=
  move_self_collision_lost c4state .RIGHT ⟨4, 4⟩ [⟨5, 4⟩, ⟨5, 5⟩, ⟨4, 5⟩]
    rfl (by decide) (by decide)

/-- Claim C10: an in-bounds move whose candidate head equals the cell held by
the snake's tail returns `Loss`, because the self-collision count runs before
the body-follow shift that would have vacated the tail cell. -/
theorem move_onto_tail_lost (s : SEngine) (mv : Movement) (hd : Cell) (tl : List Cell)
    (hs : s.snake = hd :: tl) (hne : tl ≠ [])
    (hok : isInvalidMovement s.xsz s.ysz hd (effectiveMove mv s.prv_mv) = false)
    (htail : stepCell hd (effectiveMove mv s.prv_mv) = tl.getLastD hd) :
    move s mv =
      some (.LOST, { s with snake := stepCell hd (effectiveMove mv s.prv_mv) :: tl }) := by
  have hmem : stepCell hd (effectiveMove mv s.prv_mv) ∈ tl := by
    rw [htail]
    cases tl with
    | nil => exact absurd rfl hne
    | cons a l =>
      rw [List.getLastD_cons]
      exact List.getLastD_mem_cons l a
  have hcol : 1 < (stepCell hd (effectiveMove mv s.prv_mv) :: tl).count
      (stepCell hd (effectiveMove mv s.prv_mv)) := by
    rw [List.count_cons_self]
    have := List.one_le_count_iff.mpr hmem
    omega
  simp only [move, moveDir, hs, hok, Bool.false_eq_true, if_false, if_pos hcol]

/-- Claim C1: a (possibly clamped) move that lands the head on the food cell,
in bounds and without self-collision, grows the snake by one cell appended at
the position the previous tail vacated, adds one to the score, subtracts one
from the remaining food, and re-rolls the food to a cell disjoint from every
snake cell. -/
theorem move_eat_grows (s : SEngine) (mv : Movement) (hd : Cell) (tl : List Cell)
    (hs : s.snake = hd :: tl)
    (hok : isInvalidMovement s.xsz s.ysz hd (effectiveMove mv s.prv_mv) = false)
    (hcol : ¬ 1 < (stepCell hd (effectiveMove mv s.prv_mv) :: tl).count
      (stepCell hd (effectiveMove mv s.prv_mv)))
    (heat : stepCell hd (effectiveMove mv s.prv_mv) = s.food)
    (hlv : 1 ≤ s.lv_food)
    (st : GameStatus) (s1 : SEngine)
    (hmv : move s mv = some (st, s1)) :
    s1.snake.length = s.snake.length + 1 ∧
    s1.snake.getLast? = s.snake.getLast? ∧
    s1.score = s.score + 1 ∧
    s1.lv_food + 1 = s.lv_food ∧
    s1.food ∉ s1.snake := by
  have hnm : stepCell hd (effectiveMove mv s.prv_mv) ∉ tl := by
    rw [← List.count_eq_zero]
    have h1 := List.count_cons_self (stepCell hd (effectiveMove mv s.prv_mv)) tl
    omega
  simp only [move, moveDir, hs, hok, Bool.false_eq_true, if_false] at hmv
  rw [if_neg hcol, bodyFollow_shift _ _ _ hnm, if_pos heat] at hmv
  dsimp only at hmv
  split at hmv
  · exact absurd hmv (by simp)
  · rename_i fr heq
    split at hmv
    · rename_i hz
      simp only [Option.some.injEq, Prod.mk.injEq] at hmv
      obtain ⟨hst, hs1⟩ := hmv
      subst hs1
      refine ⟨?_, ?_, rfl, ?_, ?_⟩
      · simp [hs, List.length_dropLast]
      · rw [hs, List.getLast?_concat,
          getLast?_cons_getLastD tl hd (stepCell hd (effectiveMove mv s.prv_mv))]
      · simp only
        omega
      · exact addnewfood_not_mem s.xsz s.ysz _ s.rng heq
    · rename_i hz
      simp only [Option.some.injEq, Prod.mk.injEq] at hmv
      obtain ⟨hst, hs1⟩ := hmv
      subst hs1
      refine ⟨?_, ?_, rfl, ?_, ?_⟩
      · simp [hs, List.length_dropLast]
      · rw [hs, List.getLast?_concat,
          getLast?_cons_getLastD tl hd (stepCell hd (effectiveMove mv s.prv_mv))]
      · simp only
        omega
      · exact addnewfood_not_mem s.xsz s.ysz _ s.rng heq

/-- Witness for claim C1 at a concrete state. -/
theorem move_eat_grows_witness :
    move c1state .LEFT = some (.NONE, c1after) ∧
    (c1after.snake.length = c1state.snake.length + 1 ∧
     c1after.snake.getLast? = c1state.snake.getLast? ∧
     c1after.score = c1state.score + 1 ∧
     c1after.lv_food + 1 = c1state.lv_food ∧
     c1after.food ∉ c1after.snake) :=
  ⟨by decide,
   move_eat_grows c1state .LEFT ⟨4, 4⟩ [⟨4, 5⟩] rfl (by decide) (by decide)
     (by decide) (by decide) .NONE c1after (by decide)⟩

/-- Claim C5: a food-eating move returns `Win` exactly when the remaining food
count was 1 (reaching 0 with this move), and `Continue` when more food is
still owed. -/
theorem move_eat_win_or_continue (s : SEngine) (mv : Movement) (hd : Cell) (tl : List Cell)
    (hs : s.snake = hd :: tl)
    (hok : isInvalidMovement s.xsz s.ysz hd (effectiveMove mv s.prv_mv) = false)
    (hcol : ¬ 1 < (stepCell hd (effectiveMove mv s.prv_mv) :: tl).count
      (stepCell hd (effectiveMove mv s.prv_mv)))
    (heat : stepCell hd (effectiveMove mv s.prv_mv) = s.food)
    (st : GameStatus) (s1 : SEngine)
    (hmv : move s mv = some (st, s1)) :
    (s.lv_food = 1 → st = .WIN ∧ s1.lv_food = 0) ∧
    (1 < s.lv_food → st = .NONE) := by
  have hnm : stepCell hd (effectiveMove mv s.prv_mv) ∉ tl := by
    rw [← List.count_eq_zero]
    have h1 := List.count_cons_self (stepCell hd (effectiveMove mv s.prv_mv)) tl
    omega
  simp only [move, moveDir, hs, hok, Bool.false_eq_true, if_false] at hmv
  rw [if_neg hcol, bodyFollow_shift _ _ _ hnm, if_pos heat] at hmv
  dsimp only at hmv
  split at hmv
  · exact absurd hmv (by simp)
  · rename_i fr heq
    split at hmv
    · rename_i hz
      simp only [Option.some.injEq, Prod.mk.injEq] at hmv
      obtain ⟨hst, hs1⟩ := hmv
      subst hs1
      constructor
      · intro h1
        exact ⟨hst.symm, by simp only; omega⟩
      · intro h1
        omega
    · rename_i hz
      simp only [Option.some.injEq, Prod.mk.injEq] at hmv
      obtain ⟨hst, hs1⟩ := hmv
      subst hs1
      constructor
      · intro h1
        omega
      · intro h1
        exact hst.symm

/-- Witness for claim C5 at a concrete state. -/
theorem move_eat_win_or_continue_witness :
    move c5state .LEFT = some (.WIN, c5after) ∧ c5after.lv_food = 0 :=
  ⟨by decide,
   ((move_eat_win_or_continue c5state .LEFT ⟨4, 4⟩ [⟨4, 5⟩] rfl (by decide) (by decide)
      (by decide) .WIN c5after (by decide)).1 rfl).2⟩


/-- Every field of a successfully constructed engine: snake centred with the
second cell at `(xsz/2, ysz/2+1)`, food off the snake, default direction
`LEFT`, buffer from the first full render. -/
theorem construct_ok_fields (xsz ysz lv_food score : ℕ) (rng : List Cell) (s : SEngine)
    (h : construct xsz ysz lv_food score rng = .ok s) :
    s.xsz = xsz ∧ s.ysz = ysz ∧ s.lv_food = lv_food ∧ s.score = score ∧
    s.snake = [⟨xsz / 2, ysz / 2⟩, ⟨xsz / 2, ysz / 2 + 1⟩] ∧
    s.food ∉ s.snake ∧ s.prv_mv = .LEFT ∧ s.buffer = fullRenderBuf xsz ysz ∧
    9 ≤ xsz ∧ 9 ≤ ysz ∧ 1 ≤ lv_food := by
  by_cases h1 : xsz < 9 ∨ ysz < 9
  · simp only [construct, if_pos h1] at h
    exact absurd h (by simp)
  · by_cases h2 : lv_food ≤ 0
    · simp only [construct, if_neg h1, if_pos h2] at h
      exact absurd h (by simp)
    · simp only [construct, if_neg h1, if_neg h2] at h
      split at h
      · exact absurd h (by simp)
      · rename_i fr heq
        simp only [InitResult.ok.injEq] at h
        subst h
        refine ⟨rfl, rfl, rfl, rfl, rfl, ?_, rfl, rfl, by omega, by omega, by omega⟩
        exact addnewfood_not_mem xsz ysz _ rng heq

/-- `move` never leaves the food on a snake cell if it was off the snake
before the call (this also covers losing moves: a bounds loss leaves the state
alone and a collision loss moves the head onto a body cell, which the
invariant says is not the food). -/
theorem move_preserves_food_off_snake (s : SEngine) (mv : Movement)
    (st : GameStatus) (s1 : SEngine)
    (hinv : s.food ∉ s.snake) (hmv : move s mv = some (st, s1)) :
    s1.food ∉ s1.snake := by
  rcases hsn : s.snake with _ | ⟨hd, tl⟩
  · simp only [move, moveDir, hsn] at hmv
    exact absurd hmv (by simp)
  · simp only [move, moveDir, hsn] at hmv
    rw [hsn] at hinv
    simp only [List.mem_cons, not_or] at hinv
    obtain ⟨hfhd, hftl⟩ := hinv
    by_cases hbad : isInvalidMovement s.xsz s.ysz hd (effectiveMove mv s.prv_mv) = true
    · rw [if_pos hbad] at hmv
      simp only [Option.some.injEq, Prod.mk.injEq] at hmv
      obtain ⟨-, hs1⟩ := hmv
      subst hs1
      rw [hsn]
      simp only [List.mem_cons, not_or]
      exact ⟨hfhd, hftl⟩
    · rw [if_neg hbad] at hmv
      by_cases hcol : 1 < (stepCell hd (effectiveMove mv s.prv_mv) :: tl).count
          (stepCell hd (effectiveMove mv s.prv_mv))
      · rw [if_pos hcol] at hmv
        simp only [Option.some.injEq, Prod.mk.injEq] at hmv
        obtain ⟨-, hs1⟩ := hmv
        subst hs1
        have hmemtl : stepCell hd (effectiveMove mv s.prv_mv) ∈ tl := by
          have h1 := List.count_cons_self (stepCell hd (effectiveMove mv s.prv_mv)) tl
          have h2 : 1 ≤ tl.count (stepCell hd (effectiveMove mv s.prv_mv)) := by omega
          exact List.one_le_count_iff.mp h2
        show s.food ∉ stepCell hd (effectiveMove mv s.prv_mv) :: tl
        simp only [List.mem_cons, not_or]
        exact ⟨fun h => hftl (h ▸ hmemtl), hftl⟩
      · rw [if_neg hcol] at hmv
        have hnm : stepCell hd (effectiveMove mv s.prv_mv) ∉ tl := by
          have h1 := List.count_cons_self (stepCell hd (effectiveMove mv s.prv_mv)) tl
          rw [← List.count_eq_zero]
          omega
        rw [bodyFollow_shift _ _ _ hnm] at hmv
        dsimp only at hmv
        by_cases heat : stepCell hd (effectiveMove mv s.prv_mv) = s.food
        · rw [if_pos heat] at hmv
          split at hmv
          · exact absurd hmv (by simp)
          · rename_i fr heq
            split at hmv
            all_goals
              simp only [Option.some.injEq, Prod.mk.injEq] at hmv
              obtain ⟨-, hs1⟩ := hmv
              subst hs1
              exact addnewfood_not_mem s.xsz s.ysz _ s.rng heq
        · rw [if_neg heat] at hmv
          simp only [Option.some.injEq, Prod.mk.injEq] at hmv
          obtain ⟨-, hs1⟩ := hmv
          subst hs1
          show s.food ∉ stepCell hd (effectiveMove mv s.prv_mv) :: (hd :: tl).dropLast
          simp only [List.mem_cons, not_or]
          refine ⟨fun h => heat h.symm, fun h => ?_⟩
          rcases List.mem_cons.mp ((List.dropLast_sublist (hd :: tl)).subset h) with h2 | h2
          · exact hfhd h2
          · exact hftl h2

/-- The food-off-snake invariant survives any run of non-terminal moves. -/
theorem playMoves_preserves_food_off_snake (ms : List Movement) :
    ∀ (s0 s : SEngine), s0.food ∉ s0.snake → playMoves s0 ms = some s →
      s.food ∉ s.snake := by
  induction ms with
  | nil =>
    intro s0 s h0 hp
    simp only [playMoves, Option.some.injEq] at hp
    subst hp
    exact h0
  | cons m rest ih =>
    intro s0 s h0 hp
    simp only [playMoves] at hp
    split at hp
    · rename_i s1 heq
      exact ih s1 s (move_preserves_food_off_snake s0 m .NONE s1 h0 heq) hp
    · exact absurd hp (by simp)

/-- Witness for claim C10 at a concrete state. -/
theorem move_onto_tail_lost_witness :
    move c10state .RIGHT =
      some (.LOST, { c10state with snake := [⟨4, 5⟩, ⟨4, 5⟩] }) :=
  move_onto_tail_lost c10state .RIGHT ⟨4, 4⟩ [⟨4, 5⟩]
    (by decide) (by decide) (by decide) (by decide)


/-- Claim C6: construction with `xsz < 9`, `ysz < 9` or a zero food target is
rejected as an invalid configuration and produces no engine; any other
configuration is not rejected, and a successfully constructed engine has
exactly the two snake cells `(xsz/2, ysz/2)` and `(xsz/2, ysz/2 + 1)` (head at
the grid centre, second cell one step further along the `y` axis), a food cell
disjoint from both, and last direction `LEFT`. -/
theorem construct_validation (xsz ysz lv_food score : ℕ) (rng : List Cell) :
    ((xsz < 9 ∨ ysz < 9 ∨ lv_food = 0) →
      construct xsz ysz lv_food score rng = .invalidConfig) ∧
    (¬ (xsz < 9 ∨ ysz < 9 ∨ lv_food = 0) →
      construct xsz ysz lv_food score rng ≠ .invalidConfig) ∧
    (∀ s : SEngine, construct xsz ysz lv_food score rng = .ok s →
      s.snake = [⟨xsz / 2, ysz / 2⟩, ⟨xsz / 2, ysz / 2 + 1⟩] ∧
      s.snake.length = 2 ∧
      s.food ∉ s.snake ∧
      s.prv_mv = .LEFT) := by
  refine ⟨?_, ?_, ?_⟩
  · intro h
    by_cases h1 : xsz < 9 ∨ ysz < 9
    · simp only [construct, if_pos h1]
    · have h2 : lv_food = 0 := by
        rcases h with h | h | h
        · exact absurd (Or.inl h) h1
        · exact absurd (Or.inr h) h1
        · exact h
      simp only [construct, if_neg h1, if_pos (by omega : lv_food ≤ 0)]
  · intro h
    push_neg at h
    obtain ⟨h1, h2, h3⟩ := h
    simp only [construct, if_neg (by omega : ¬ (xsz < 9 ∨ ysz < 9)),
      if_neg (by omega : ¬ lv_food ≤ 0)]
    split
    · simp
    · simp
  · intro s hok
    obtain ⟨-, -, -, -, h5, h6, h7, -, -, -, -⟩ :=
      construct_ok_fields xsz ysz lv_food score rng s hok
    exact ⟨h5, by rw [h5]; rfl, h6, h7⟩

/-- Witness for claim C6 at concrete configurations: an 8-wide grid and a zero
food target are rejected, and a valid construction has the centred snake,
disjoint food and `LEFT` direction. -/
theorem construct_validation_witness :
    construct 8 9 1 0 [] = .invalidConfig ∧
    construct 9 9 0 0 [] = .invalidConfig ∧
    c6demo.snake = [⟨4, 4⟩, ⟨4, 5⟩] ∧ c6demo.snake.length = 2 ∧
    c6demo.food ∉ c6demo.snake ∧ c6demo.prv_mv = .LEFT :=
  ⟨(construct_validation 8 9 1 0 []).1 (Or.inl (by decide)),
   (construct_validation 9 9 0 0 []).1 (Or.inr (Or.inr rfl)),
   (construct_validation 9 9 1 0 [⟨0, 0⟩]).2.2 c6demo rfl⟩

/-- Claim C7: in every state reachable from a successful construction through
moves that all returned the non-terminal status, the food cell is on none of
the snake cells. -/
theorem food_off_snake_reachable (xsz ysz lv_food score : ℕ) (rng : List Cell)
    (s0 : SEngine) (ms : List Movement) (s : SEngine)
    (h0 : construct xsz ysz lv_food score rng = .ok s0)
    (hp : playMoves s0 ms = some s) :
    s.food ∉ s.snake := by
  obtain ⟨-, -, -, -, -, hbase, -, -, -, -, -⟩ :=
    construct_ok_fields xsz ysz lv_food score rng s0 h0
  exact playMoves_preserves_food_off_snake ms s0 s hbase hp

set_option maxRecDepth 8000 in
/-- Witness for claim C7: construct a 9-by-9 game and walk one cell to the
left; the food stays off the snake. -/
theorem food_off_snake_reachable_witness :
    playMoves c6demo [.LEFT] = some c7after ∧ c7after.food ∉ c7after.snake :=
  ⟨by decide,
   food_off_snake_reachable 9 9 1 0 [⟨0, 0⟩] c6demo [.LEFT] c7after rfl (by decide)⟩


/-- Claim C8: a successfully constructed engine's buffer holds exactly
`LENGTH xsz ysz = ((xsz+2)*(ysz+2))*2 + xsz + 2` character units plus the null
terminator stored immediately after them; the first full render advances over
exactly that many units, and every subsequent (incremental) render preserves
both the length and the terminator. -/
theorem render_buffer_length (xsz ysz lv_food score : ℕ) (rng : List Cell) (s : SEngine)
    (h : construct xsz ysz lv_food score rng = .ok s) :
    s.buffer.length = LENGTH xsz ysz + 1 ∧
    s.buffer[LENGTH xsz ysz]? = some nullChar ∧
    (fullRenderList xsz ysz uninitCell).length = LENGTH xsz ysz ∧
    (∀ t : SEngine, 1 ≤ t.ysz → t.buffer.length = LENGTH t.xsz t.ysz + 1 →
      (refreshBuf t).length = LENGTH t.xsz t.ysz + 1 ∧
      (refreshBuf t)[LENGTH t.xsz t.ysz]? = t.buffer[LENGTH t.xsz t.ysz]?) := by
  obtain ⟨-, -, -, -, -, -, -, hbuf, hx9, hy9, -⟩ :=
    construct_ok_fields xsz ysz lv_food score rng s h
  have hfl := fullRenderList_length xsz ysz uninitCell (by omega)
  have hlen : s.buffer.length = LENGTH xsz ysz + 1 := by
    rw [hbuf, fullRenderBuf, List.length_append, hfl]
    rfl
  refine ⟨hlen, ?_, hfl, ?_⟩
  · rw [hbuf, fullRenderBuf,
      show LENGTH xsz ysz = (fullRenderList xsz ysz uninitCell).length from hfl.symm]
    exact List.getElem?_concat_length _ _
  · intro t hty htlen
    have hLe : LENGTH t.xsz t.ysz = (2 * t.ysz + 5) * (t.xsz + 1) + (2 * t.ysz + 5) := by
      rw [LENGTH]
      ring
    have hlen2 : (2 * t.ysz + 5) * (t.xsz + 1) ≤ t.buffer.length := by omega
    obtain ⟨r1, r2, r3⟩ := refreshBuf_spec t hty hlen2
    refine ⟨by rw [r1, htlen], r3 (LENGTH t.xsz t.ysz) ?_⟩
    intro x hx hcon
    have hmul : (2 * t.ysz + 5) * (x + 2) ≤ (2 * t.ysz + 5) * (t.xsz + 1) :=
      Nat.mul_le_mul_left _ (by omega)
    have he2 : (2 * t.ysz + 5) * (x + 2) = (2 * t.ysz + 5) * (x + 1) + (2 * t.ysz + 5) := by
      ring
    simp only [cellPos] at hcon
    omega

set_option maxRecDepth 20000 in
/-- Witness for claim C8 at the 9-by-9 configuration. -/
theorem render_buffer_length_witness :
    c8state.buffer.length = LENGTH 9 9 + 1 ∧
    c8state.buffer[LENGTH 9 9]? = some nullChar ∧
    (fullRenderList 9 9 uninitCell).length = LENGTH 9 9 ∧
    (refreshBuf c8state).length = LENGTH 9 9 + 1 ∧
    (refreshBuf c8state)[LENGTH 9 9]? = c8state.buffer[LENGTH 9 9]? := by
  obtain ⟨h1, h2, h3, h4⟩ := render_buffer_length 9 9 1 0 [⟨0, 0⟩] c8state (by decide)
  exact ⟨h1, h2, h3, (h4 c8state (by decide) h1).1, (h4 c8state (by decide) h1).2⟩

set_option maxRecDepth 100000 in
/-- Counterexample to claim C9 as stated: after a successful in-bounds move
the cached buffer still shows the pre-move layout — at the vacated tail cell
`(4, 5)` it holds a full-block glyph although the post-move layout dictates
two spaces — so the caller does need a separate render call. -/
theorem stale_buffer_counterexample :
    move (refresh c9base) .LEFT = some (.NONE, c9after) ∧
    c9after.buffer[cellPos 9 4 5]? = some '█' ∧
    cellGlyph c9after.snake c9after.food ⟨4, 5⟩ = (' ', ' ') ∧
    c9after.buffer[cellPos 9 4 5]? ≠
      some (cellGlyph c9after.snake c9after.food ⟨4, 5⟩).1 := by
  refine ⟨by decide, by decide, by decide, by decide⟩

/-- Claim C9 (amended): `move` itself leaves the cached buffer untouched; the
buffer reflects the post-move state only after the caller invokes the
incremental render, at which point every interior cell unit equals the glyph
pair dictated by the new snake, food and empty-cell layout. -/
theorem move_then_refresh_renders (s : SEngine) (mv : Movement) (st : GameStatus)
    (s1 : SEngine) (hmv : move s mv = some (st, s1)) (hy : 1 ≤ s.ysz)
    (hlen : (2 * s.ysz + 5) * (s.xsz + 1) ≤ s.buffer.length) :
    s1.buffer = s.buffer ∧
    (∀ x y, x < s1.xsz → y < s1.ysz →
      (refreshBuf s1)[cellPos s1.ysz x y]? = some (cellGlyph s1.snake s1.food ⟨x, y⟩).1 ∧
      (refreshBuf s1)[cellPos s1.ysz x y + 1]? =
        some (cellGlyph s1.snake s1.food ⟨x, y⟩).2) := by
  obtain ⟨hb, hxe, hye⟩ := move_fields_fixed s mv st s1 hmv
  refine ⟨hb, ?_⟩
  have hy1 : 1 ≤ s1.ysz := by rw [hye]; exact hy
  have hlen1 : (2 * s1.ysz + 5) * (s1.xsz + 1) ≤ s1.buffer.length := by
    rw [hb, hxe, hye]
    exact hlen
  exact (refreshBuf_spec s1 hy1 hlen1).2.1

set_option maxRecDepth 100000 in
/-- Witness for the amended claim C9 at a concrete state: the buffer is
unchanged by the move, and after rendering, the head cell `(4, 3)` shows the
block glyph. -/
theorem move_then_refresh_renders_witness :
    c9after.buffer = (refresh c9base).buffer ∧
    (refreshBuf c9after)[cellPos 9 4 3]? =
      some (cellGlyph c9after.snake c9after.food ⟨4, 3⟩).1 :=
  ⟨(move_then_refresh_renders (refresh c9base) .LEFT .NONE c9after
      (by decide) (by decide) (by decide)).1,
   ((move_then_refresh_renders (refresh c9base) .LEFT .NONE c9after
      (by decide) (by decide) (by decide)).2 4 3 (by decide) (by decide)).1⟩

end NSnake
